import Mathlib

/-!
A shallow embedding of the statistical core of the generic data-analysis
dashboard (`my_first_app.py` / `test.py`): column classification, missing-data
quantification, per-column aggregates, the pairwise correlation matrix
(pearson / spearman / kendall, pairwise-complete-case), and the independent
two-sample comparison pipeline built on Welch's t-test.

Cells of the tabular dataset are modelled as numeric (`ℚ`), textual
(`String`), or missing (pandas `NaN` / `None`).  Statistics that pandas or
scipy report as `NaN` (mean of an empty selection, a correlation with a
zero-variance coordinate, a t-statistic with zero pooled standard error) are
modelled as `Option`-absent values.
-/

namespace SalesBoard

/-- A single cell of the tabular dataset: a number, a text value, or a
missing marker (pandas `NaN`). -/
inductive Cell where
  | num (q : ℚ)
  | str (s : String)
  | missing
  deriving DecidableEq, Repr

/-- The declared dtype family of a column, as pandas `select_dtypes` sees it:
`numeric` for `include=["number"]`, `text` for `include=["object", "category"]`,
`other` for dtypes picked by neither selector (e.g. bool, datetime). -/
inductive ColKind where
  | numeric
  | text
  | other
  deriving DecidableEq, Repr

/-- A named dataframe column: a dtype family together with its cells. -/
structure Col where
  name : String
  kind : ColKind
  cells : List Cell
  deriving DecidableEq, Repr

/-- A dataset: the ordered sequence of named columns of the dataframe. -/
structure Dataset where
  cols : List Col
  deriving DecidableEq, Repr

/-- The numeric view of a cell (`some q` for a numeric cell, `none`
otherwise); `dropna` on a numeric column is `filterMap cellNum`. -/
def cellNum : Cell → Option ℚ
  | .num q => some q
  | _ => none

/-- The textual view of a cell. -/
def cellStr : Cell → Option String
  | .str s => some s
  | _ => none

/-- Whether a cell is missing (`df.isnull()` on one cell). -/
def cellIsMissing : Cell → Bool
  | .missing => true
  | _ => false

/-- Row count of the dataframe (`df.shape[0]`): the length of its columns
(taken from the first column; all columns of a dataframe share it). -/
def rowCount (d : Dataset) : ℕ :=
  match d.cols with
  | [] => 0
  | c :: _ => c.cells.length

/-- The numeric columns of the dataframe, in original order
(`df.select_dtypes(include=["number"])`). -/
def numericColsL (d : Dataset) : List Col :=
  d.cols.filter (fun c => c.kind = ColKind.numeric)

/-- `numeric_cols = df.select_dtypes(include=["number"]).columns.tolist()`. -/
def numeric_cols (d : Dataset) : List String :=
  (numericColsL d).map Col.name

/-- `categorical_cols = df.select_dtypes(include=["object", "category"]).columns.tolist()`. -/
def categorical_cols (d : Dataset) : List String :=
  (d.cols.filter (fun c => c.kind = ColKind.text)).map Col.name

/-- The non-missing numeric values of a column, in order
(`df[col].dropna()` for a numeric column). -/
def colVals (c : Col) : List ℚ :=
  c.cells.filterMap cellNum

/-- Per-column missing ratio (`df.isnull().mean()` for one column):
`NaN` (`none`) for a zero-length column, else missing count over length. -/
def colMissingRatio (c : Col) : Option ℚ :=
  if c.cells.length = 0 then none
  else some ((c.cells.countP cellIsMissing : ℚ) / (c.cells.length : ℚ))

/-- `df.isnull().mean().mean()`: the mean over columns of the per-column
missing ratios, with pandas `skipna` semantics — `NaN` per-column means are
dropped, and the mean of an empty collection is `NaN` (`none`). -/
def missingRatio (d : Dataset) : Option ℚ :=
  if (d.cols.filterMap colMissingRatio).length = 0 then none
  else some ((d.cols.filterMap colMissingRatio).sum /
    ((d.cols.filterMap colMissingRatio).length : ℚ))

/-- `df[col].sum(skipna=True)`: sum of the non-missing numeric values
(pandas sums an all-missing column to `0.0`). -/
def colSum (c : Col) : ℚ :=
  (colVals c).sum

/-- `df[col].mean(skipna=True)`: mean of the non-missing numeric values,
`NaN` (`none`) when there are none. -/
def colMean (c : Col) : Option ℚ :=
  if (colVals c).length = 0 then none
  else some ((colVals c).sum / ((colVals c).length : ℚ))

/-- The KPI aggregates: `top_numeric = numeric_cols[:top]` and, for each of
those columns, `(name, df[col].sum(skipna=True), df[col].mean(skipna=True))`.
The source hardcodes `top = 3`. -/
def topAggregates (d : Dataset) (top : ℕ) : List (String × ℚ × Option ℚ) :=
  ((numericColsL d).take top).map (fun c => (c.name, colSum c, colMean c))

/-! ### Group comparison (independent t-test section of the source) -/

/-- `groups = df[group_col].dropna().unique()` — the distinct non-missing
labels of the grouping column (order irrelevant to the source's guard, which
only tests `len(groups) >= 2`). -/
def groupsOf (gc : Col) : List String :=
  (gc.cells.filterMap cellStr).dedup

/-- `df[df[group_col] == label][numeric_col].dropna()` — target-column values
on the rows whose grouping cell equals the label, missing values dropped. -/
def sample (gc tc : Col) (label : String) : List ℚ :=
  ((gc.cells.zip tc.cells).filter (fun p => p.1 = Cell.str label)).filterMap
    (fun p => cellNum p.2)

/-- Sample mean. -/
def meanQ (l : List ℚ) : ℚ :=
  l.sum / (l.length : ℚ)

/-- Unbiased sample variance (`ddof = 1`, as scipy's `ttest_ind` uses). -/
def varQ (l : List ℚ) : ℚ :=
  (l.map (fun x => (x - meanQ l) ^ 2)).sum / ((l.length : ℚ) - 1)

/-- Welch's t-statistic `(m1 - m2) / sqrt(v1/n1 + v2/n2)`, as computed by
`scipy.stats.ttest_ind(data1, data2, equal_var=False)`; the zero-denominator
case (both sample variances vanish) is modelled as undefined (`none`).  In
scipy that case is `NaN` when the means are also equal (`0/0`); every
theorem below that inspects the statistic's value does so under an
equal-means or nonzero-variance hypothesis, where this model and scipy
agree. -/
noncomputable def welchT (a b : List ℚ) : Option ℝ :=
  if varQ a = 0 ∧ varQ b = 0 then none
  else some (((meanQ a - meanQ b : ℚ) : ℝ) /
    Real.sqrt ((varQ a / (a.length : ℚ) + varQ b / (b.length : ℚ) : ℚ) : ℝ))

/-- The Welch–Satterthwaite degrees-of-freedom approximation
`(v1/n1 + v2/n2)^2 / ((v1/n1)^2/(n1-1) + (v2/n2)^2/(n2-1))`, the reference
distribution scipy's Welch test uses for its p-value. -/
def welchDF (a b : List ℚ) : ℚ :=
  let x := varQ a / (a.length : ℚ)
  let y := varQ b / (b.length : ℚ)
  (x + y) ^ 2 / (x ^ 2 / ((a.length : ℚ) - 1) + y ^ 2 / ((b.length : ℚ) - 1))

/-- Unnormalised Student-t density kernel `(1 + u^2/v) ^ (-(v+1)/2)`. -/
noncomputable def tKernel (v u : ℝ) : ℝ :=
  (1 + u ^ 2 / v) ^ (-(v + 1) / 2)

/-- Survival function of the Student-t reference distribution with `v`
degrees of freedom: the normalised upper tail mass of the density kernel. -/
noncomputable def tSF (v x : ℝ) : ℝ :=
  (∫ u in Set.Ioi x, tKernel v u) / ∫ u, tKernel v u

/-- Two-tailed p-value of a t-statistic against the Student-t reference
distribution with `v` degrees of freedom. -/
noncomputable def pTwoTailed (v : ℚ) (t : ℝ) : ℝ :=
  2 * tSF (v : ℝ) |t|

/-- The outcome of one run of the t-test section, as the source displays it:
sample sizes, group means, the Welch t-statistic, the reported
degrees-of-freedom figure `len(data1) + len(data2) - 2`, and the p-value. -/
structure CompResult where
  nA : ℕ
  nB : ℕ
  meanA : ℚ
  meanB : ℚ
  tStat : Option ℝ
  dfReported : ℕ
  pValue : Option ℝ

/-- The recoverable failures of the comparison pipeline (spec §7). -/
inductive CompareError where
  | unknownColumn
  | insufficientGroups
  | insufficientSampleSize
  deriving DecidableEq, Repr

/-- The comparison pipeline on a chosen grouping column and target column:
guard `len(groups) >= 2`, extract the two samples, guard
`len(data1) > 1 and len(data2) > 1`, then run Welch's test and report the
metrics of the source's results row. -/
noncomputable def compareCols (gc tc : Col) (la lb : String) :
    Except CompareError CompResult :=
  if 2 ≤ (groupsOf gc).length then
    let a := sample gc tc la
    let b := sample gc tc lb
    if 1 < a.length ∧ 1 < b.length then
      .ok { nA := a.length, nB := b.length, meanA := meanQ a, meanB := meanQ b
            tStat := welchT a b
            dfReported := a.length + b.length - 2
            pValue := (welchT a b).map (fun t => pTwoTailed (welchDF a b) t) }
    else .error .insufficientSampleSize
  else .error .insufficientGroups

/-- Column lookup by name. -/
def getCol (d : Dataset) (nm : String) : Option Col :=
  d.cols.find? (fun c => c.name = nm)

/-- A group-comparison request: grouping column, numeric target column, and
the two selected group labels. -/
structure CompareReq where
  groupCol : String
  targetCol : String
  labelA : String
  labelB : String

/-- The dataset-level comparison entry point. -/
noncomputable def compare (d : Dataset) (r : CompareReq) :
    Except CompareError CompResult :=
  match getCol d r.groupCol, getCol d r.targetCol with
  | some gc, some tc => compareCols gc tc r.labelA r.labelB
  | _, _ => .error .unknownColumn

/-! ### Correlation engine (`df[numeric_cols].corr(method=...)`) -/

/-- The selectable correlation method of the source's selectbox. -/
inductive Method where
  | pearson
  | spearman
  | kendall
  deriving DecidableEq, Repr

/-- The numeric view of a cell pair: defined only when both cells are
numeric. -/
def pairNum (p : Cell × Cell) : Option (ℚ × ℚ) :=
  match cellNum p.1, cellNum p.2 with
  | some x, some y => some (x, y)
  | _, _ => none

/-- Pairwise-complete cases of two columns: row pairs where both cells are
numeric (pandas excludes a row from a pair's correlation when either value
is missing). -/
def completePairs (a b : Col) : List (ℚ × ℚ) :=
  (a.cells.zip b.cells).filterMap pairNum

/-- Centred sum of squares of the first coordinates of a paired sample. -/
def sxxOf (l : List (ℚ × ℚ)) : ℚ :=
  (l.map (fun p => (p.1 - meanQ (l.map Prod.fst)) ^ 2)).sum

/-- Centred sum of squares of the second coordinates of a paired sample. -/
def syyOf (l : List (ℚ × ℚ)) : ℚ :=
  (l.map (fun p => (p.2 - meanQ (l.map Prod.snd)) ^ 2)).sum

/-- Centred sum of cross products of a paired sample. -/
def sxyOf (l : List (ℚ × ℚ)) : ℚ :=
  (l.map (fun p =>
    (p.1 - meanQ (l.map Prod.fst)) * (p.2 - meanQ (l.map Prod.snd)))).sum

/-- Pearson's correlation coefficient of a paired sample:
`Sxy / (sqrt Sxx * sqrt Syy)` over centred sums; `NaN` (`none`) when either
centred sum of squares vanishes (constant coordinate, or fewer than two
pairs). -/
noncomputable def pearsonOn (l : List (ℚ × ℚ)) : Option ℝ :=
  if sxxOf l = 0 ∨ syyOf l = 0 then none
  else some ((sxyOf l : ℝ) /
    (Real.sqrt (sxxOf l : ℝ) * Real.sqrt (syyOf l : ℝ)))

/-- Average (midrank) of a value within a list: the rank pandas assigns to
tied observations, `#\x7bbelow\x7d + (#\x7bequal\x7d + 1) / 2`. -/
def avgRank (xs : List ℚ) (v : ℚ) : ℚ :=
  (xs.countP (fun x => x < v) : ℚ) + ((xs.countP (fun x => x = v) : ℚ) + 1) / 2

/-- The coordinatewise midrank transform of a paired sample. -/
def rankPairs (l : List (ℚ × ℚ)) : List (ℚ × ℚ) :=
  l.map (fun p => (avgRank (l.map Prod.fst) p.1, avgRank (l.map Prod.snd) p.2))

/-- Spearman's rank correlation of a paired sample: Pearson's coefficient of
the coordinatewise midranks. -/
noncomputable def spearmanOn (l : List (ℚ × ℚ)) : Option ℝ :=
  pearsonOn (rankPairs l)

/-- The unordered index pairs of a list, as value pairs. -/
def pairsOf : List α → List (α × α)
  | [] => []
  | a :: t => t.map (fun b => (a, b)) ++ pairsOf t

/-- Number of concordant observation pairs. -/
def concCount (l : List (ℚ × ℚ)) : ℕ :=
  (pairsOf l).countP (fun q => 0 < (q.1.1 - q.2.1) * (q.1.2 - q.2.2))

/-- Number of discordant observation pairs. -/
def discCount (l : List (ℚ × ℚ)) : ℕ :=
  (pairsOf l).countP (fun q => (q.1.1 - q.2.1) * (q.1.2 - q.2.2) < 0)

/-- Number of observation pairs not tied in the first coordinate
(`n0 - n1` of the tau-b formula). -/
def untiedX (l : List (ℚ × ℚ)) : ℕ :=
  (pairsOf l).countP (fun q => q.1.1 ≠ q.2.1)

/-- Number of observation pairs not tied in the second coordinate
(`n0 - n2` of the tau-b formula). -/
def untiedY (l : List (ℚ × ℚ)) : ℕ :=
  (pairsOf l).countP (fun q => q.1.2 ≠ q.2.2)

/-- Kendall's tau-b of a paired sample:
`(C - D) / sqrt((n0 - n1) * (n0 - n2))` where `C`/`D` count concordant and
discordant pairs and `n1`/`n2` count pairs tied in the respective coordinate;
`NaN` (`none`) when either coordinate has no untied pair. -/
noncomputable def kendallOn (l : List (ℚ × ℚ)) : Option ℝ :=
  if untiedX l = 0 ∨ untiedY l = 0 then none
  else some (((concCount l : ℝ) - (discCount l : ℝ)) /
    Real.sqrt ((untiedX l : ℝ) * (untiedY l : ℝ)))

/-- One entry of the correlation matrix for a pair of numeric columns. -/
noncomputable def corrEntry (m : Method) (a b : Col) : Option ℝ :=
  match m with
  | .pearson => pearsonOn (completePairs a b)
  | .spearman => spearmanOn (completePairs a b)
  | .kendall => kendallOn (completePairs a b)

/-- The correlation analysis of the source: the full named pairwise matrix
over the numeric columns when at least two exist (`if len(numeric_cols) >= 2:
corr_matrix = df[numeric_cols].corr(method=corr_method)`), and an explicitly
absent result otherwise. -/
noncomputable def correlate (d : Dataset) (m : Method) :
    Option (List (List (String × String × Option ℝ))) :=
  if 2 ≤ (numericColsL d).length then
    some ((numericColsL d).map (fun a =>
      (numericColsL d).map (fun b => (a.name, b.name, corrEntry m a b))))
  else none

/-- The significance classification of the source (`if p_value < 0.05`):
true exactly when the p-value is a number strictly below `0.05`
(a `NaN` p-value compares false, hence lands in the not-significant branch). -/
def significant (res : CompResult) : Prop :=
  ∃ p, res.pValue = some p ∧ p < 0.05

/-- A list of rationals is nonconstant when it holds two distinct values
(equivalently, its sample variance is nonzero). -/
def nonconstant (l : List ℚ) : Prop :=
  ∃ x ∈ l, ∃ y ∈ l, x ≠ y

instance (l : List ℚ) : Decidable (nonconstant l) := by
  unfold nonconstant
  infer_instance

/-! ### Concrete fixture datasets used by the verification -/

/-- Fixture: grouping column with samples of sizes 2 and 6. -/
def exWelchGroup : Col :=
  ⟨"g", ColKind.text, [.str "a", .str "a", .str "b", .str "b", .str "b",
    .str "b", .str "b", .str "b"]⟩

/-- Fixture: target column whose two group samples are `[0, 2]` (unbiased
variance 2) and `[1, 3, 5, 7, 9, 11]` (unbiased variance 14). -/
def exWelchTarget : Col :=
  ⟨"t", ColKind.numeric, [.num 0, .num 2, .num 1, .num 3, .num 5, .num 7,
    .num 9, .num 11]⟩

/-- Fixture: grouping column with a single distinct label. -/
def exSingleGroup : Col := ⟨"g", ColKind.text, [.str "x"]⟩

/-- Fixture: one-row numeric target column. -/
def exSingleTarget : Col := ⟨"t", ColKind.numeric, [.num 1]⟩

/-- Fixture: two labels, with label `x` on a single row. -/
def exSmallGroup : Col := ⟨"g", ColKind.text, [.str "x", .str "y", .str "y"]⟩

/-- Fixture: target for the undersized-sample example. -/
def exSmallTarget : Col := ⟨"t", ColKind.numeric, [.num 1, .num 2, .num 3]⟩

/-- Fixture: two labels of two rows each. -/
def exEqGroup : Col :=
  ⟨"g", ColKind.text, [.str "x", .str "x", .str "y", .str "y"]⟩

/-- Fixture: target whose two group samples are both `[1, 3]` — identical
means and identical unbiased variances. -/
def exEqTarget : Col :=
  ⟨"t", ColKind.numeric, [.num 1, .num 3, .num 1, .num 3]⟩

/-- Fixture: two labels, label `x` covering two rows. -/
def exConstGroup : Col := ⟨"g", ColKind.text, [.str "x", .str "x", .str "y"]⟩

/-- Fixture: target giving label `x` the constant sample `[5, 5]`. -/
def exConstTarget : Col := ⟨"t", ColKind.numeric, [.num 5, .num 5, .num 1]⟩

/-- Fixture: 4 columns × 5 rows with per-column missing counts 2, 1, 2, 0. -/
def exMissingD : Dataset := ⟨[
  ⟨"c1", ColKind.numeric, [.missing, .missing, .num 1, .num 2, .num 3]⟩,
  ⟨"c2", ColKind.numeric, [.missing, .num 1, .num 2, .num 3, .num 4]⟩,
  ⟨"c3", ColKind.text, [.missing, .missing, .str "x", .str "y", .str "z"]⟩,
  ⟨"c4", ColKind.numeric, [.num 1, .num 2, .num 3, .num 4, .num 5]⟩]⟩

/-- Fixture: a dataset with one column and zero rows. -/
def exEmptyRows : Dataset := ⟨[⟨"a", ColKind.numeric, []⟩]⟩

/-- Fixture: a numeric-dtype column with every value missing. -/
def exAllMissingCol : Col := ⟨"m", ColKind.numeric, [.missing, .missing]⟩

/-- Fixture: the dataset holding only the all-missing numeric column. -/
def exMissingNumD : Dataset := ⟨[exAllMissingCol]⟩

/-- Fixture: a nonconstant numeric column. -/
def exConstX : Col := ⟨"x", ColKind.numeric, [.num 1, .num 2, .num 3]⟩

/-- Fixture: a constant (zero-variance) numeric column. -/
def exConstY : Col := ⟨"y", ColKind.numeric, [.num 5, .num 5, .num 5]⟩

/-- Fixture: dataset with two numeric columns, one of zero variance. -/
def exConstD : Dataset := ⟨[exConstX, exConstY]⟩

/-- Fixture: dataset with a single numeric column. -/
def exOneNum : Dataset := ⟨[⟨"a", ColKind.numeric, [.num 1]⟩]⟩

/-! ### Helper lemmas: list sums -/

theorem list_map_sum_fin {α M : Type} [AddCommMonoid M] (l : List α) (f : α → M) :
    (l.map f).sum = ∑ i : Fin l.length, f (l.get i) := by
  induction l with
  | nil => simp
  | cons a t ih =>
      rw [List.map_cons, List.sum_cons, ih]
      exact (Fin.sum_univ_succ (fun i => f ((a :: t).get i))).symm

theorem list_sum_sq_nonneg {α : Type} (l : List α) (f : α → ℚ) :
    0 ≤ (l.map (fun a => f a ^ 2)).sum := by
  refine List.sum_nonneg ?_
  intro x hx
  obtain ⟨a, _, rfl⟩ := List.mem_map.mp hx
  positivity

theorem list_sum_sq_eq_zero {α : Type} (l : List α) (f : α → ℚ)
    (h : (l.map (fun a => f a ^ 2)).sum = 0) : ∀ a ∈ l, f a = 0 := by
  induction l with
  | nil => simp
  | cons b t ih =>
      have hb : (0 : ℚ) ≤ f b ^ 2 := sq_nonneg _
      have ht : (0 : ℚ) ≤ (t.map (fun a => f a ^ 2)).sum := list_sum_sq_nonneg t f
      have hsum : f b ^ 2 + (t.map (fun a => f a ^ 2)).sum = 0 := by simpa using h
      have hb0 : f b ^ 2 = 0 := le_antisymm (by linarith) hb
      have ht0 : (t.map (fun a => f a ^ 2)).sum = 0 := by linarith
      intro a ha
      rcases List.mem_cons.mp ha with rfl | ha
      · exact pow_eq_zero_iff (n := 2) (by norm_num) |>.mp hb0
      · exact ih ht0 a ha

theorem list_cauchy_schwarz {α : Type} (l : List α) (f g : α → ℚ) :
    ((l.map (fun a => f a * g a)).sum) ^ 2 ≤
      ((l.map (fun a => f a ^ 2)).sum) * ((l.map (fun a => g a ^ 2)).sum) := by
  rw [list_map_sum_fin l (fun a => f a * g a), list_map_sum_fin l (fun a => f a ^ 2),
    list_map_sum_fin l (fun a => g a ^ 2)]
  exact Finset.sum_mul_sq_le_sq_mul_sq Finset.univ (fun i => f (l.get i))
    (fun i => g (l.get i))

/-! ### Helper lemmas: Pearson -/

theorem sxxOf_nonneg (l : List (ℚ × ℚ)) : 0 ≤ sxxOf l :=
  list_sum_sq_nonneg l (fun p => p.1 - meanQ (l.map Prod.fst))

theorem syyOf_nonneg (l : List (ℚ × ℚ)) : 0 ≤ syyOf l :=
  list_sum_sq_nonneg l (fun p => p.2 - meanQ (l.map Prod.snd))

theorem sxxOf_ne_zero (l : List (ℚ × ℚ)) (h : nonconstant (l.map Prod.fst)) :
    sxxOf l ≠ 0 := by
  intro h0
  obtain ⟨x, hx, y, hy, hne⟩ := h
  have hz := list_sum_sq_eq_zero l (fun p => p.1 - meanQ (l.map Prod.fst)) h0
  obtain ⟨p, hp, rfl⟩ := List.mem_map.mp hx
  obtain ⟨q, hq, rfl⟩ := List.mem_map.mp hy
  have h1 : p.1 - meanQ (l.map Prod.fst) = 0 := hz p hp
  have h2 : q.1 - meanQ (l.map Prod.fst) = 0 := hz q hq
  exact hne (by linarith)

theorem sxxOf_swap (l : List (ℚ × ℚ)) : sxxOf (l.map Prod.swap) = syyOf l := by
  unfold sxxOf syyOf
  rw [show (l.map Prod.swap).map Prod.fst = l.map Prod.snd from by
    rw [List.map_map]; rfl]
  rw [List.map_map]
  rfl

theorem syyOf_swap (l : List (ℚ × ℚ)) : syyOf (l.map Prod.swap) = sxxOf l := by
  unfold sxxOf syyOf
  rw [show (l.map Prod.swap).map Prod.snd = l.map Prod.fst from by
    rw [List.map_map]; rfl]
  rw [List.map_map]
  rfl

theorem sxyOf_swap (l : List (ℚ × ℚ)) : sxyOf (l.map Prod.swap) = sxyOf l := by
  unfold sxyOf
  rw [show (l.map Prod.swap).map Prod.fst = l.map Prod.snd from by
    rw [List.map_map]; rfl]
  rw [show (l.map Prod.swap).map Prod.snd = l.map Prod.fst from by
    rw [List.map_map]; rfl]
  rw [List.map_map]
  exact congrArg List.sum (List.map_congr_left (fun a _ => mul_comm _ _))

theorem pearsonOn_swap (l : List (ℚ × ℚ)) :
    pearsonOn (l.map Prod.swap) = pearsonOn l := by
  unfold pearsonOn
  rw [sxxOf_swap, syyOf_swap, sxyOf_swap]
  exact if_congr or_comm rfl (by rw [mul_comm])

theorem pearsonOn_bound (l : List (ℚ × ℚ)) (r : ℝ) (h : pearsonOn l = some r) :
    -1 ≤ r ∧ r ≤ 1 := by
  unfold pearsonOn at h
  split at h
  · exact absurd h (by simp)
  · rename_i hcond
    push_neg at hcond
    obtain ⟨hxx, hyy⟩ := hcond
    have hxx0 : (0 : ℚ) < sxxOf l := lt_of_le_of_ne (sxxOf_nonneg l) (Ne.symm hxx)
    have hyy0 : (0 : ℚ) < syyOf l := lt_of_le_of_ne (syyOf_nonneg l) (Ne.symm hyy)
    have hcs : (sxyOf l) ^ 2 ≤ sxxOf l * syyOf l :=
      list_cauchy_schwarz l (fun p => p.1 - meanQ (l.map Prod.fst))
        (fun p => p.2 - meanQ (l.map Prod.snd))
    have hcsR : ((sxyOf l : ℝ)) ^ 2 ≤ (sxxOf l : ℝ) * (syyOf l : ℝ) := by
      exact_mod_cast hcs
    have habs : |(sxyOf l : ℝ)| ≤ Real.sqrt (sxxOf l : ℝ) * Real.sqrt (syyOf l : ℝ) := by
      rw [← Real.sqrt_sq_eq_abs, ← Real.sqrt_mul (by positivity)]
      exact Real.sqrt_le_sqrt hcsR
    have hden : (0 : ℝ) < Real.sqrt (sxxOf l : ℝ) * Real.sqrt (syyOf l : ℝ) := by
      apply mul_pos <;> exact Real.sqrt_pos.mpr (by exact_mod_cast ‹_›)
    have hr : r = (sxyOf l : ℝ) / (Real.sqrt (sxxOf l : ℝ) * Real.sqrt (syyOf l : ℝ)) := by
      exact (Option.some.injEq _ _ ▸ h).symm
    have : |r| ≤ 1 := by
      rw [hr, abs_div, abs_of_pos hden]
      exact div_le_one_of_le₀ habs hden.le
    exact abs_le.mp this

theorem pearsonOn_self (l : List (ℚ × ℚ)) (hd : ∀ p ∈ l, p.1 = p.2)
    (hx : sxxOf l ≠ 0) : pearsonOn l = some 1 := by
  have hmap : l.map Prod.snd = l.map Prod.fst :=
    List.map_congr_left (fun a ha => (hd a ha).symm)
  have hyy : syyOf l = sxxOf l := by
    unfold syyOf sxxOf
    rw [hmap]
    exact congrArg List.sum (List.map_congr_left (fun a ha => by rw [← hd a ha]))
  have hxy : sxyOf l = sxxOf l := by
    unfold sxyOf sxxOf
    rw [hmap]
    refine congrArg List.sum (List.map_congr_left (fun a ha => ?_))
    rw [← hd a ha]
    ring
  unfold pearsonOn
  rw [hyy, hxy, if_neg (by tauto)]
  have hnn : (0 : ℝ) ≤ (sxxOf l : ℝ) := by exact_mod_cast sxxOf_nonneg l
  have hne : ((sxxOf l : ℝ)) ≠ 0 := by exact_mod_cast hx
  rw [Real.mul_self_sqrt hnn, div_self hne]

/-! ### Helper lemmas: midranks and Spearman -/

theorem countP_lt_add_eq (xs : List ℚ) (v : ℚ) :
    xs.countP (fun x => x < v) + xs.countP (fun x => x = v) =
      xs.countP (fun x => x ≤ v) := by
  induction xs with
  | nil => simp
  | cons a t ih =>
      rcases lt_trichotomy a v with h | h | h
      · simp only [List.countP_cons, decide_eq_true_eq]
        rw [if_pos h, if_neg (by exact h.ne), if_pos h.le]
        omega
      · simp only [List.countP_cons, decide_eq_true_eq]
        rw [if_neg (by simp [h]), if_pos h, if_pos h.le]
        omega
      · simp only [List.countP_cons, decide_eq_true_eq]
        rw [if_neg (by simp [asymm h]), if_neg (by exact h.ne.symm),
          if_neg (by simp [h.not_le])]
        omega

theorem avgRank_strict_mono (xs : List ℚ) (x y : ℚ) (hx : x ∈ xs) (hxy : x < y) :
    avgRank xs x < avgRank xs y := by
  unfold avgRank
  have hE : 1 ≤ xs.countP (fun t => t = x) :=
    List.countP_pos_iff.mpr ⟨x, hx, by simp⟩
  have hAB : xs.countP (fun t => t < x) + xs.countP (fun t => t = x) ≤
      xs.countP (fun t => t < y) := by
    rw [countP_lt_add_eq]
    refine List.countP_mono_left (fun a _ ha => ?_)
    simp only [decide_eq_true_eq] at ha ⊢
    linarith
  have h1 : ((xs.countP (fun t => t < x) : ℚ)) + (xs.countP (fun t => t = x) : ℚ) ≤
      (xs.countP (fun t => t < y) : ℚ) := by exact_mod_cast hAB
  have h2 : (1 : ℚ) ≤ (xs.countP (fun t => t = x) : ℚ) := by exact_mod_cast hE
  have h3 : (0 : ℚ) ≤ (xs.countP (fun t => t = y) : ℚ) := by positivity
  linarith

theorem rankPairs_fst (l : List (ℚ × ℚ)) :
    (rankPairs l).map Prod.fst = l.map (fun p => avgRank (l.map Prod.fst) p.1) := by
  unfold rankPairs
  rw [List.map_map]
  rfl

theorem rankPairs_nonconstant (l : List (ℚ × ℚ))
    (h : nonconstant (l.map Prod.fst)) :
    nonconstant ((rankPairs l).map Prod.fst) := by
  obtain ⟨x, hx, y, hy, hne⟩ := h
  rw [rankPairs_fst]
  obtain ⟨p, hp, rfl⟩ := List.mem_map.mp hx
  obtain ⟨q, hq, rfl⟩ := List.mem_map.mp hy
  refine ⟨avgRank (l.map Prod.fst) p.1, List.mem_map.mpr ⟨p, hp, rfl⟩,
    avgRank (l.map Prod.fst) q.1, List.mem_map.mpr ⟨q, hq, rfl⟩, ?_⟩
  rcases hne.lt_or_lt with hlt | hlt
  · exact (avgRank_strict_mono (l.map Prod.fst) _ _ hx hlt).ne
  · exact (avgRank_strict_mono (l.map Prod.fst) _ _ hy hlt).ne.symm

theorem rankPairs_swap (l : List (ℚ × ℚ)) :
    rankPairs (l.map Prod.swap) = (rankPairs l).map Prod.swap := by
  have h1 : rankPairs (l.map Prod.swap) =
      l.map (fun p => (avgRank (l.map Prod.snd) p.2, avgRank (l.map Prod.fst) p.1)) := by
    unfold rankPairs
    rw [show (l.map Prod.swap).map Prod.fst = l.map Prod.snd from by
      rw [List.map_map]; rfl]
    rw [show (l.map Prod.swap).map Prod.snd = l.map Prod.fst from by
      rw [List.map_map]; rfl]
    rw [List.map_map]
    rfl
  have h2 : (rankPairs l).map Prod.swap =
      l.map (fun p => (avgRank (l.map Prod.snd) p.2, avgRank (l.map Prod.fst) p.1)) := by
    unfold rankPairs
    rw [List.map_map]
    rfl
  rw [h1, h2]

theorem spearmanOn_swap (l : List (ℚ × ℚ)) :
    spearmanOn (l.map Prod.swap) = spearmanOn l := by
  unfold spearmanOn
  rw [rankPairs_swap, pearsonOn_swap]

theorem spearmanOn_self (l : List (ℚ × ℚ)) (hd : ∀ p ∈ l, p.1 = p.2)
    (hnc : nonconstant (l.map Prod.fst)) : spearmanOn l = some 1 := by
  unfold spearmanOn
  apply pearsonOn_self
  · intro p hp
    unfold rankPairs at hp
    obtain ⟨q, hq, rfl⟩ := List.mem_map.mp hp
    have hsnd : l.map Prod.snd = l.map Prod.fst :=
      List.map_congr_left (fun a ha => (hd a ha).symm)
    simp only [hsnd, hd q hq]
  · exact sxxOf_ne_zero _ (rankPairs_nonconstant l hnc)

/-! ### Helper lemmas: Kendall -/

theorem pairsOf_map {α β : Type} (f : α → β) (l : List α) :
    pairsOf (l.map f) = (pairsOf l).map (Prod.map f f) := by
  induction l with
  | nil => rfl
  | cons a t ih =>
      simp only [List.map_cons, pairsOf, ih, List.map_append, List.map_map]
      rfl

theorem pairsOf_mem {α : Type} {l : List α} {q : α × α} (h : q ∈ pairsOf l) :
    q.1 ∈ l ∧ q.2 ∈ l := by
  induction l with
  | nil => cases h
  | cons a t ih =>
      rcases List.mem_append.mp h with h1 | h2
      · obtain ⟨b, hb, rfl⟩ := List.mem_map.mp h1
        exact ⟨List.mem_cons_self a t, List.mem_cons_of_mem a hb⟩
      · obtain ⟨hq1, hq2⟩ := ih h2
        exact ⟨List.mem_cons_of_mem a hq1, List.mem_cons_of_mem a hq2⟩

theorem mem_pairsOf_of_ne {α : Type} {l : List α} {a b : α} (ha : a ∈ l)
    (hb : b ∈ l) (hne : a ≠ b) :
    (a, b) ∈ pairsOf l ∨ (b, a) ∈ pairsOf l := by
  induction l with
  | nil => cases ha
  | cons c t ih =>
      rcases List.mem_cons.mp ha with rfl | hat
      · have hbt : b ∈ t := by
          rcases List.mem_cons.mp hb with rfl | hbt
          · exact absurd rfl hne
          · exact hbt
        exact Or.inl (List.mem_append.mpr (Or.inl
          (List.mem_map.mpr ⟨b, hbt, rfl⟩)))
      · rcases List.mem_cons.mp hb with rfl | hbt
        · exact Or.inr (List.mem_append.mpr (Or.inl
            (List.mem_map.mpr ⟨a, hat, rfl⟩)))
        · rcases ih hat hbt with h | h
          · exact Or.inl (List.mem_append.mpr (Or.inr h))
          · exact Or.inr (List.mem_append.mpr (Or.inr h))

theorem countP_add_le_countP {α : Type} (l : List α) (p q r : α → Bool)
    (hp : ∀ a ∈ l, p a = true → r a = true)
    (hq : ∀ a ∈ l, q a = true → r a = true)
    (hpq : ∀ a ∈ l, ¬(p a = true ∧ q a = true)) :
    l.countP p + l.countP q ≤ l.countP r := by
  induction l with
  | nil => simp
  | cons a t ih =>
      have iht := ih (fun x hx => hp x (List.mem_cons_of_mem a hx))
        (fun x hx => hq x (List.mem_cons_of_mem a hx))
        (fun x hx => hpq x (List.mem_cons_of_mem a hx))
      have hma := List.mem_cons_self a t
      simp only [List.countP_cons]
      by_cases hpa : p a = true
      · have hra := hp a hma hpa
        have hqa : ¬ q a = true := fun hqa => hpq a hma ⟨hpa, hqa⟩
        rw [if_pos hpa, if_pos hra, if_neg hqa]
        omega
      · by_cases hqa : q a = true
        · have hra := hq a hma hqa
          rw [if_pos hqa, if_pos hra, if_neg hpa]
          omega
        · rw [if_neg hpa, if_neg hqa]
          have : (if r a = true then 1 else 0) ≤ 1 := by split <;> omega
          omega

theorem concCount_swap (l : List (ℚ × ℚ)) :
    concCount (l.map Prod.swap) = concCount l := by
  unfold concCount
  rw [pairsOf_map, List.countP_map]
  refine List.countP_congr (fun q _ => ?_)
  simp only [Function.comp_apply, Prod.map_fst, Prod.map_snd, Prod.fst_swap,
    Prod.snd_swap, decide_eq_true_eq]
  rw [mul_comm]

theorem discCount_swap (l : List (ℚ × ℚ)) :
    discCount (l.map Prod.swap) = discCount l := by
  unfold discCount
  rw [pairsOf_map, List.countP_map]
  refine List.countP_congr (fun q _ => ?_)
  simp only [Function.comp_apply, Prod.map_fst, Prod.map_snd, Prod.fst_swap,
    Prod.snd_swap, decide_eq_true_eq]
  rw [mul_comm]

theorem untiedX_swap (l : List (ℚ × ℚ)) :
    untiedX (l.map Prod.swap) = untiedY l := by
  unfold untiedX untiedY
  rw [pairsOf_map, List.countP_map]
  refine List.countP_congr (fun q _ => ?_)
  simp only [Function.comp_apply, Prod.map_fst, Prod.map_snd, Prod.fst_swap,
    Prod.snd_swap]

theorem untiedY_swap (l : List (ℚ × ℚ)) :
    untiedY (l.map Prod.swap) = untiedX l := by
  unfold untiedX untiedY
  rw [pairsOf_map, List.countP_map]
  refine List.countP_congr (fun q _ => ?_)
  simp only [Function.comp_apply, Prod.map_fst, Prod.map_snd, Prod.fst_swap,
    Prod.snd_swap]

theorem kendallOn_swap (l : List (ℚ × ℚ)) :
    kendallOn (l.map Prod.swap) = kendallOn l := by
  unfold kendallOn
  rw [concCount_swap, discCount_swap, untiedX_swap, untiedY_swap]
  exact if_congr or_comm rfl (by rw [mul_comm])

theorem kendallOn_bound (l : List (ℚ × ℚ)) (r : ℝ) (h : kendallOn l = some r) :
    -1 ≤ r ∧ r ≤ 1 := by
  unfold kendallOn at h
  split at h
  · exact absurd h (by simp)
  · rename_i hcond
    push_neg at hcond
    obtain ⟨hx0, hy0⟩ := hcond
    have hcdx : concCount l + discCount l ≤ untiedX l := by
      refine countP_add_le_countP _ _ _ _ (fun a _ hpa => ?_) (fun a _ hqa => ?_)
        (fun a _ hand => ?_)
      · simp only [decide_eq_true_eq] at hpa ⊢
        intro hfst
        rw [hfst, sub_self, zero_mul] at hpa
        exact lt_irrefl 0 hpa
      · simp only [decide_eq_true_eq] at hqa ⊢
        intro hfst
        rw [hfst, sub_self, zero_mul] at hqa
        exact lt_irrefl 0 hqa
      · obtain ⟨h1, h2⟩ := hand
        simp only [decide_eq_true_eq] at h1 h2
        exact absurd h2 (asymm h1)
    have hcdy : concCount l + discCount l ≤ untiedY l := by
      refine countP_add_le_countP _ _ _ _ (fun a _ hpa => ?_) (fun a _ hqa => ?_)
        (fun a _ hand => ?_)
      · simp only [decide_eq_true_eq] at hpa ⊢
        intro hsnd
        rw [hsnd, sub_self, mul_zero] at hpa
        exact lt_irrefl 0 hpa
      · simp only [decide_eq_true_eq] at hqa ⊢
        intro hsnd
        rw [hsnd, sub_self, mul_zero] at hqa
        exact lt_irrefl 0 hqa
      · obtain ⟨h1, h2⟩ := hand
        simp only [decide_eq_true_eq] at h1 h2
        exact absurd h2 (asymm h1)
    have hsum : ((concCount l : ℝ) + discCount l) ≤
        Real.sqrt ((untiedX l : ℝ) * (untiedY l : ℝ)) := by
      rw [Real.le_sqrt (by positivity) (by positivity)]
      have hux : ((concCount l : ℝ) + discCount l) ≤ (untiedX l : ℝ) := by
        exact_mod_cast hcdx
      have huy : ((concCount l : ℝ) + discCount l) ≤ (untiedY l : ℝ) := by
        exact_mod_cast hcdy
      have hnn : (0 : ℝ) ≤ (concCount l : ℝ) + discCount l := by positivity
      calc ((concCount l : ℝ) + discCount l) ^ 2
          = ((concCount l : ℝ) + discCount l) * ((concCount l : ℝ) + discCount l) := sq _
        _ ≤ (untiedX l : ℝ) * (untiedY l : ℝ) := mul_le_mul hux huy hnn (by positivity)
    have hc0 : (0 : ℝ) ≤ (concCount l : ℝ) := by positivity
    have hd0 : (0 : ℝ) ≤ (discCount l : ℝ) := by positivity
    have habs0 : |(concCount l : ℝ) - (discCount l : ℝ)| ≤
        (concCount l : ℝ) + (discCount l : ℝ) :=
      abs_le.mpr ⟨by linarith, by linarith⟩
    have habs : |(concCount l : ℝ) - (discCount l : ℝ)| ≤
        Real.sqrt ((untiedX l : ℝ) * (untiedY l : ℝ)) := le_trans habs0 hsum
    have hden : (0 : ℝ) < Real.sqrt ((untiedX l : ℝ) * (untiedY l : ℝ)) := by
      refine Real.sqrt_pos.mpr (mul_pos ?_ ?_) <;>
        · rw [Nat.cast_pos]
          omega
    have hr : r = ((concCount l : ℝ) - (discCount l : ℝ)) /
        Real.sqrt ((untiedX l : ℝ) * (untiedY l : ℝ)) :=
      (Option.some.injEq _ _ ▸ h).symm
    have : |r| ≤ 1 := by
      rw [hr, abs_div, abs_of_pos hden]
      exact div_le_one_of_le₀ habs hden.le
    exact abs_le.mp this

theorem kendallOn_self (l : List (ℚ × ℚ)) (hd : ∀ p ∈ l, p.1 = p.2)
    (hnc : nonconstant (l.map Prod.fst)) : kendallOn l = some 1 := by
  have hpair : ∀ q ∈ pairsOf l, q.1.2 = q.1.1 ∧ q.2.2 = q.2.1 := by
    intro q hq
    obtain ⟨h1, h2⟩ := pairsOf_mem hq
    exact ⟨(hd _ h1).symm, (hd _ h2).symm⟩
  have hdzero : discCount l = 0 := by
    unfold discCount
    refine List.countP_eq_zero.mpr (fun q hq => ?_)
    obtain ⟨e1, e2⟩ := hpair q hq
    simp only [e1, e2, decide_eq_true_eq]
    intro hlt
    exact absurd hlt (by nlinarith [sq_nonneg (q.1.1 - q.2.1)])
  have hconc : concCount l = untiedX l := by
    unfold concCount untiedX
    refine List.countP_congr (fun q hq => ?_)
    obtain ⟨e1, e2⟩ := hpair q hq
    simp only [e1, e2, decide_eq_true_eq]
    exact (mul_self_pos (a := q.1.1 - q.2.1)).trans sub_ne_zero
  have huxy : untiedY l = untiedX l := by
    unfold untiedX untiedY
    refine List.countP_congr (fun q hq => ?_)
    obtain ⟨e1, e2⟩ := hpair q hq
    rw [e1, e2]
  have hux : untiedX l ≠ 0 := by
    obtain ⟨x, hx, y, hy, hne⟩ := hnc
    obtain ⟨p, hp, rfl⟩ := List.mem_map.mp hx
    obtain ⟨q, hq, rfl⟩ := List.mem_map.mp hy
    have hpq : p ≠ q := fun he => hne (by rw [he])
    have hmem : (p, q) ∈ pairsOf l ∨ (q, p) ∈ pairsOf l :=
      mem_pairsOf_of_ne hp hq hpq
    unfold untiedX
    rcases hmem with hm | hm
    · refine Nat.pos_iff_ne_zero.mp (List.countP_pos_iff.mpr ⟨(p, q), hm, ?_⟩)
      simpa using hne
    · refine Nat.pos_iff_ne_zero.mp (List.countP_pos_iff.mpr ⟨(q, p), hm, ?_⟩)
      simpa using hne.symm
  unfold kendallOn
  rw [hdzero, hconc, huxy, if_neg (by tauto)]
  have hnn : (0 : ℝ) ≤ (untiedX l : ℝ) := by positivity
  have hne0 : ((untiedX l : ℝ)) ≠ 0 := Nat.cast_ne_zero.mpr hux
  rw [Real.sqrt_mul_self hnn]
  simp only [Nat.cast_zero, sub_zero, div_self hne0]

/-! ### Helper lemmas: complete pairs and matrix entries -/

theorem pairNum_swap (p : Cell × Cell) :
    pairNum (Prod.swap p) = (pairNum p).map Prod.swap := by
  rcases p with ⟨c1, c2⟩
  cases c1 <;> cases c2 <;> rfl

theorem completePairs_swap (a b : Col) :
    completePairs b a = (completePairs a b).map Prod.swap := by
  unfold completePairs
  rw [← List.zip_swap, List.filterMap_map, List.map_filterMap]
  have hfun : (pairNum ∘ Prod.swap) = (fun p => (pairNum p).map Prod.swap) :=
    funext (fun p => pairNum_swap p)
  rw [hfun]

theorem zip_self_filterMap (cs : List Cell) :
    (cs.zip cs).filterMap pairNum = (cs.filterMap cellNum).map (fun x => (x, x)) := by
  induction cs with
  | nil => rfl
  | cons c t ih =>
      cases c <;>
        simp [pairNum, cellNum, List.zip_cons_cons, List.filterMap_cons, ih]

theorem completePairs_self_eq (a : Col) : ∀ p ∈ completePairs a a, p.1 = p.2 := by
  unfold completePairs
  rw [zip_self_filterMap]
  intro p hp
  obtain ⟨x, _, rfl⟩ := List.mem_map.mp hp
  rfl

theorem completePairs_self_fst (a : Col) :
    (completePairs a a).map Prod.fst = colVals a := by
  unfold completePairs colVals
  rw [zip_self_filterMap, List.map_map]
  exact List.map_id _

theorem corrEntry_symm (m : Method) (a b : Col) :
    corrEntry m a b = corrEntry m b a := by
  cases m
  · show pearsonOn (completePairs a b) = pearsonOn (completePairs b a)
    rw [completePairs_swap a b, pearsonOn_swap]
  · show spearmanOn (completePairs a b) = spearmanOn (completePairs b a)
    rw [completePairs_swap a b, spearmanOn_swap]
  · show kendallOn (completePairs a b) = kendallOn (completePairs b a)
    rw [completePairs_swap a b, kendallOn_swap]

theorem corrEntry_bound (m : Method) (a b : Col) (r : ℝ)
    (h : corrEntry m a b = some r) : -1 ≤ r ∧ r ≤ 1 := by
  cases m
  · exact pearsonOn_bound _ r h
  · unfold corrEntry spearmanOn at h
    exact pearsonOn_bound _ r h
  · exact kendallOn_bound _ r h

theorem corrEntry_diag (m : Method) (a : Col) (h : nonconstant (colVals a)) :
    corrEntry m a a = some 1 := by
  have hfst : nonconstant ((completePairs a a).map Prod.fst) := by
    rw [completePairs_self_fst]
    exact h
  cases m
  · exact pearsonOn_self _ (completePairs_self_eq a) (sxxOf_ne_zero _ hfst)
  · exact spearmanOn_self _ (completePairs_self_eq a) hfst
  · exact kendallOn_self _ (completePairs_self_eq a) hfst

/-! ### Helper lemmas: the Student-t reference distribution -/

theorem tKernel_pos (v u : ℝ) (hv : 0 < v) : 0 < tKernel v u := by
  unfold tKernel
  exact Real.rpow_pos_of_pos (by positivity) _

theorem tKernel_abs (v u : ℝ) : tKernel v |u| = tKernel v u := by
  unfold tKernel
  rw [sq_abs]

theorem tKernel_continuous (v : ℝ) (hv : 0 < v) : Continuous (tKernel v) := by
  unfold tKernel
  refine Continuous.rpow_const (by continuity) (fun x => Or.inl ?_)
  positivity

theorem tKernel_le (v u : ℝ) (hv : 1 ≤ v) : tKernel v u ≤ v * (1 + u ^ 2)⁻¹ := by
  have hv0 : (0 : ℝ) < v := lt_of_lt_of_le one_pos hv
  have hbase : (1 : ℝ) ≤ 1 + u ^ 2 / v := le_add_of_nonneg_right (by positivity)
  have h1 : tKernel v u ≤ (1 + u ^ 2 / v) ^ (-1 : ℝ) := by
    unfold tKernel
    exact Real.rpow_le_rpow_of_exponent_le hbase (by linarith)
  rw [Real.rpow_neg_one] at h1
  refine h1.trans ?_
  have he : (1 + u ^ 2 / v)⁻¹ = v / (v + u ^ 2) := by
    rw [inv_eq_one_div]
    rw [div_eq_div_iff (by positivity) (by positivity)]
    field_simp
  rw [he, mul_comm, ← div_eq_inv_mul]
  exact div_le_div_of_nonneg_left hv0.le (by positivity) (by nlinarith)

theorem tKernel_integrable (v : ℝ) (hv : 1 ≤ v) :
    MeasureTheory.Integrable (tKernel v) := by
  have hv0 : (0 : ℝ) < v := lt_of_lt_of_le one_pos hv
  have hmaj : MeasureTheory.Integrable (fun u : ℝ => v * (1 + u ^ 2)⁻¹) :=
    integrable_inv_one_add_sq.const_mul v
  refine hmaj.mono (tKernel_continuous v hv0).aestronglyMeasurable ?_
  refine Filter.Eventually.of_forall (fun u => ?_)
  rw [Real.norm_eq_abs, Real.norm_eq_abs, abs_of_pos (tKernel_pos v u hv0),
    abs_of_pos (by positivity)]
  exact tKernel_le v u hv

theorem tSF_zero (v : ℝ) (hv : 1 ≤ v) : tSF v 0 = 1 / 2 := by
  have hv0 : (0 : ℝ) < v := lt_of_lt_of_le one_pos hv
  have hint := tKernel_integrable v hv
  have habs : (∫ u, tKernel v u) = 2 * ∫ u in Set.Ioi (0 : ℝ), tKernel v u := by
    calc (∫ u, tKernel v u) = ∫ u, tKernel v |u| :=
          MeasureTheory.integral_congr_ae
            (Filter.Eventually.of_forall (fun u => (tKernel_abs v u).symm))
      _ = 2 * ∫ u in Set.Ioi (0 : ℝ), tKernel v u := integral_comp_abs
  have hpos : 0 < ∫ u in Set.Ioi (0 : ℝ), tKernel v u := by
    refine (MeasureTheory.integral_pos_iff_support_of_nonneg_ae
      (Filter.Eventually.of_forall (fun u => (tKernel_pos v u hv0).le))
      hint.integrableOn).mpr ?_
    have hsupp : Function.support (tKernel v) = Set.univ :=
      Set.eq_univ_of_forall (fun u => (tKernel_pos v u hv0).ne')
    rw [hsupp, MeasureTheory.Measure.restrict_apply_univ, Real.volume_Ioi]
    exact ENNReal.zero_lt_top
  have hne : (∫ u in Set.Ioi (0 : ℝ), tKernel v u) ≠ 0 := ne_of_gt hpos
  unfold tSF
  rw [habs, mul_comm, ← div_div, div_self hne]

theorem pTwoTailed_zero (v : ℚ) (hv : 1 ≤ v) : pTwoTailed v 0 = 1 := by
  unfold pTwoTailed
  rw [abs_zero, tSF_zero (v : ℝ) (by exact_mod_cast hv)]
  norm_num

/-! ### Helper lemmas: variances and the Welch degrees of freedom -/

theorem varQ_nonneg (l : List ℚ) (h2 : 2 ≤ l.length) : 0 ≤ varQ l := by
  unfold varQ
  refine div_nonneg (list_sum_sq_nonneg l _) ?_
  have : (2 : ℚ) ≤ (l.length : ℚ) := by exact_mod_cast h2
  linarith

theorem welchDF_ge_one (a b : List ℚ) (ha : 2 ≤ a.length) (hb : 2 ≤ b.length)
    (h : ¬(varQ a = 0 ∧ varQ b = 0)) : 1 ≤ welchDF a b := by
  unfold welchDF
  have hla : (2 : ℚ) ≤ (a.length : ℚ) := by exact_mod_cast ha
  have hlb : (2 : ℚ) ≤ (b.length : ℚ) := by exact_mod_cast hb
  set x := varQ a / (a.length : ℚ) with hxdef
  set y := varQ b / (b.length : ℚ) with hydef
  have hx0 : 0 ≤ x := div_nonneg (varQ_nonneg a ha) (by linarith)
  have hy0 : 0 ≤ y := div_nonneg (varQ_nonneg b hb) (by linarith)
  have hxy : 0 < x + y := by
    rcases not_and_or.mp h with hva | hvb
    · have hva0 : 0 < varQ a := lt_of_le_of_ne (varQ_nonneg a ha) (Ne.symm hva)
      have hx : 0 < x := div_pos hva0 (by linarith)
      linarith
    · have hvb0 : 0 < varQ b := lt_of_le_of_ne (varQ_nonneg b hb) (Ne.symm hvb)
      have hy : 0 < y := div_pos hvb0 (by linarith)
      linarith
  have hp : (1 : ℚ) ≤ (a.length : ℚ) - 1 := by linarith
  have hq : (1 : ℚ) ≤ (b.length : ℚ) - 1 := by linarith
  have h1 : x ^ 2 / ((a.length : ℚ) - 1) ≤ x ^ 2 := div_le_self (sq_nonneg x) hp
  have h2 : y ^ 2 / ((b.length : ℚ) - 1) ≤ y ^ 2 := div_le_self (sq_nonneg y) hq
  have hden_le : x ^ 2 / ((a.length : ℚ) - 1) + y ^ 2 / ((b.length : ℚ) - 1) ≤
      (x + y) ^ 2 := by nlinarith [mul_nonneg hx0 hy0]
  have hden_pos : 0 < x ^ 2 / ((a.length : ℚ) - 1) + y ^ 2 / ((b.length : ℚ) - 1) := by
    have hxpos : 0 < x ∨ 0 < y := by
      by_contra hcon
      push_neg at hcon
      obtain ⟨c1, c2⟩ := hcon
      linarith
    rcases hxpos with hx | hy
    · have t1 : 0 < x ^ 2 / ((a.length : ℚ) - 1) := div_pos (by positivity) (by linarith)
      have t2 : 0 ≤ y ^ 2 / ((b.length : ℚ) - 1) := div_nonneg (sq_nonneg y) (by linarith)
      linarith
    · have t1 : 0 < y ^ 2 / ((b.length : ℚ) - 1) := div_pos (by positivity) (by linarith)
      have t2 : 0 ≤ x ^ 2 / ((a.length : ℚ) - 1) := div_nonneg (sq_nonneg x) (by linarith)
      linarith
  rw [le_div_iff₀ hden_pos, one_mul]
  exact hden_le

/-! ### Claim theorems -/

/-- C1: the claim says the degrees-of-freedom figure reported next to the
Welch p-value is the Welch–Satterthwaite approximation.  The code instead
reports the pooled-variance figure `len(data1) + len(data2) - 2`: on samples
`[0, 2]` and `[1, 3, 5, 7, 9, 11]` the pipeline reports `6` while the
Welch–Satterthwaite value of the very samples it tested is `250/47 ≈ 5.32`.
This confirms the divergence the spec itself documents as a bug. -/
theorem c1_reported_df_is_pooled_not_welch :
    (compareCols exWelchGroup exWelchTarget "a" "b").toOption.map
        CompResult.dfReported = some 6
    ∧ sample exWelchGroup exWelchTarget "a" = [0, 2]
    ∧ sample exWelchGroup exWelchTarget "b" = [1, 3, 5, 7, 9, 11]
    ∧ welchDF (sample exWelchGroup exWelchTarget "a")
        (sample exWelchGroup exWelchTarget "b") = 250 / 47
    ∧ (250 / 47 : ℚ) ≠ (6 : ℚ) := by
  have hsa : sample exWelchGroup exWelchTarget "a" = [0, 2] := by decide
  have hsb : sample exWelchGroup exWelchTarget "b" = [1, 3, 5, 7, 9, 11] := by
    decide
  refine ⟨rfl, hsa, hsb, ?_, by norm_num⟩
  rw [hsa, hsb]
  norm_num [welchDF, varQ, meanQ]

/-- C2 counterexample: on a dataset whose grouping column holds a single
distinct label, both extracted samples have length ≤ 1, yet the pipeline
fails with `InsufficientGroups`, not `InsufficientSampleSize` — the groups
precondition is checked first. -/
theorem c2_counterexample :
    compareCols exSingleGroup exSingleTarget "x" "x" =
      .error .insufficientGroups
    ∧ (sample exSingleGroup exSingleTarget "x").length ≤ 1
    ∧ CompareError.insufficientGroups ≠ CompareError.insufficientSampleSize := by
  refine ⟨rfl, by decide, by decide⟩

/-- C2 (amended): for every dataset and comparison request whose grouping
column has at least 2 distinct non-missing labels, if either extracted
sample has length ≤ 1 the pipeline fails with the recoverable
`InsufficientSampleSize` outcome — no t-test is run — regardless of the
other group's sample size. -/
theorem c2_insufficient_sample_size (gc tc : Col) (la lb : String)
    (hg : 2 ≤ (groupsOf gc).length)
    (h : (sample gc tc la).length ≤ 1 ∨ (sample gc tc lb).length ≤ 1) :
    compareCols gc tc la lb = .error .insufficientSampleSize := by
  have hcond : ¬(1 < (sample gc tc la).length ∧ 1 < (sample gc tc lb).length) := by
    intro hc
    rcases h with h | h <;> omega
  unfold compareCols
  rw [if_pos hg]
  simp only [if_neg hcond]

/-- C2 witness: the amended statement at a concrete dataset where group `x`
has one value and group `y` has two. -/
theorem c2_witness :
    compareCols exSmallGroup exSmallTarget "x" "y" =
      .error .insufficientSampleSize
    ∧ 2 ≤ (groupsOf exSmallGroup).length
    ∧ (sample exSmallGroup exSmallTarget "x").length ≤ 1
    ∧ 1 < (sample exSmallGroup exSmallTarget "y").length :=
  ⟨c2_insufficient_sample_size exSmallGroup exSmallTarget "x" "y" (by decide)
    (Or.inl (by decide)), by decide, by decide, by decide⟩

/-- C3: the correlation analysis returns an explicitly absent result exactly
when the dataset has fewer than 2 numeric columns; with at least 2 numeric
columns the matrix is computed. -/
theorem c3_correlate_none_iff (d : Dataset) (m : Method) :
    correlate d m = none ↔ (numericColsL d).length < 2 := by
  unfold correlate
  by_cases h : 2 ≤ (numericColsL d).length
  · rw [if_pos h]
    simp only [reduceCtorEq, false_iff]
    omega
  · rw [if_neg h]
    simp only [true_iff]
    omega

/-- C9: whenever the grouping column holds fewer than 2 distinct non-missing
labels the pipeline fails with `InsufficientGroups`, whatever two labels the
request names; label selection and the t-test never run. -/
theorem c9_insufficient_groups (gc tc : Col) (la lb : String)
    (h : (groupsOf gc).length < 2) :
    compareCols gc tc la lb = .error .insufficientGroups := by
  unfold compareCols
  rw [if_neg (by omega)]

/-- C9 witness: the single-label grouping column, with arbitrary requested
labels. -/
theorem c9_witness :
    compareCols exSingleGroup exSingleTarget "p" "q" =
      .error .insufficientGroups
    ∧ (groupsOf exSingleGroup).length < 2 :=
  ⟨c9_insufficient_groups exSingleGroup exSingleTarget "p" "q" (by decide),
    by decide⟩

/-- C10 (amended): the pipeline accepts the same label for both groups —
whenever the grouping column has at least 2 distinct labels and the label's
sample has more than one value, the Welch test runs on two identical samples
instead of rejecting the request, the two reported group means are equal,
and the t-statistic is 0 whenever the sample has nonzero variance (a
zero-variance sample yields a `NaN` t-statistic instead). -/
theorem c10_same_label_runs (gc tc : Col) (la : String)
    (hg : 2 ≤ (groupsOf gc).length)
    (hn : 1 < (sample gc tc la).length) :
    ∃ res, compareCols gc tc la la = .ok res
      ∧ res.meanA = res.meanB ∧ res.nA = res.nB
      ∧ (varQ (sample gc tc la) ≠ 0 → res.tStat = some 0) := by
  have heq : compareCols gc tc la la = .ok
      { nA := (sample gc tc la).length, nB := (sample gc tc la).length
        meanA := meanQ (sample gc tc la), meanB := meanQ (sample gc tc la)
        tStat := welchT (sample gc tc la) (sample gc tc la)
        dfReported := (sample gc tc la).length + (sample gc tc la).length - 2
        pValue := (welchT (sample gc tc la) (sample gc tc la)).map
          (fun t => pTwoTailed (welchDF (sample gc tc la) (sample gc tc la)) t) } := by
    unfold compareCols
    rw [if_pos hg]
    simp only [if_pos (And.intro hn hn)]
  refine ⟨_, heq, rfl, rfl, fun hvar => ?_⟩
  show welchT (sample gc tc la) (sample gc tc la) = some 0
  unfold welchT
  rw [if_neg (by tauto)]
  norm_num

/-- C10 witness: both labels set to `x` on a sample `[1, 3]` of nonzero
variance. -/
theorem c10_witness :
    ∃ res, compareCols exEqGroup exEqTarget "x" "x" = .ok res
      ∧ res.meanA = res.meanB ∧ res.nA = res.nB
      ∧ (varQ (sample exEqGroup exEqTarget "x") ≠ 0 → res.tStat = some 0) :=
  c10_same_label_runs exEqGroup exEqTarget "x" (by decide) (by decide)

/-- C10 counterexample: with both labels set to `x` and the zero-variance
sample `[5, 5]` the test runs, but scipy's t-statistic is `NaN` (`0/0`), not
the 0 the claim asserts. -/
theorem c10_counterexample :
    (compareCols exConstGroup exConstTarget "x" "x").toOption.map
        CompResult.tStat = some none
    ∧ 1 < (sample exConstGroup exConstTarget "x").length
    ∧ (some (none : Option ℝ) ≠ some (some (0 : ℝ))) := by
  refine ⟨?_, by decide, by simp⟩
  have hvar : varQ (sample exConstGroup exConstTarget "x") = 0 := by
    rw [show sample exConstGroup exConstTarget "x" = [5, 5] from by decide]
    norm_num [varQ, meanQ]
  have ht : welchT (sample exConstGroup exConstTarget "x")
      (sample exConstGroup exConstTarget "x") = none := by
    unfold welchT
    rw [if_pos ⟨hvar, hvar⟩]
  have heq : compareCols exConstGroup exConstTarget "x" "x" = .ok
      { nA := (sample exConstGroup exConstTarget "x").length
        nB := (sample exConstGroup exConstTarget "x").length
        meanA := meanQ (sample exConstGroup exConstTarget "x")
        meanB := meanQ (sample exConstGroup exConstTarget "x")
        tStat := welchT (sample exConstGroup exConstTarget "x")
          (sample exConstGroup exConstTarget "x")
        dfReported := (sample exConstGroup exConstTarget "x").length +
          (sample exConstGroup exConstTarget "x").length - 2
        pValue := (welchT (sample exConstGroup exConstTarget "x")
            (sample exConstGroup exConstTarget "x")).map
          (fun t => pTwoTailed (welchDF (sample exConstGroup exConstTarget "x")
            (sample exConstGroup exConstTarget "x")) t) } := by
    unfold compareCols
    rw [if_pos (by decide)]
    simp only [if_pos (And.intro (by decide : 1 < (sample exConstGroup
      exConstTarget "x").length) (by decide : 1 < (sample exConstGroup
      exConstTarget "x").length))]
  rw [heq]
  simp only [Except.toOption, Option.map_some]
  rw [ht]
  rfl

/-- C5: for every comparison that runs the t-test, the significance flag
holds exactly when the p-value is a number strictly below 0.05; and when the
two samples have equal means (in particular identical samples, or samples of
identical means and variances) the outcome is not significant, because the
t-statistic is 0 and the two-tailed p-value of 0 is 1. -/
theorem c5_significance (gc tc : Col) (la lb : String)
    (hg : 2 ≤ (groupsOf gc).length)
    (ha : 1 < (sample gc tc la).length)
    (hb : 1 < (sample gc tc lb).length)
    (hm : meanQ (sample gc tc la) = meanQ (sample gc tc lb)) :
    ∃ res, compareCols gc tc la lb = .ok res
      ∧ (significant res ↔ ∃ p, res.pValue = some p ∧ p < 0.05)
      ∧ ¬ significant res := by
  have heq : compareCols gc tc la lb = .ok
      { nA := (sample gc tc la).length, nB := (sample gc tc lb).length
        meanA := meanQ (sample gc tc la), meanB := meanQ (sample gc tc lb)
        tStat := welchT (sample gc tc la) (sample gc tc lb)
        dfReported := (sample gc tc la).length + (sample gc tc lb).length - 2
        pValue := (welchT (sample gc tc la) (sample gc tc lb)).map
          (fun t => pTwoTailed (welchDF (sample gc tc la) (sample gc tc lb)) t) } := by
    unfold compareCols
    rw [if_pos hg]
    simp only [if_pos (And.intro ha hb)]
  refine ⟨_, heq, Iff.rfl, ?_⟩
  rintro ⟨p, hp, hplt⟩
  have hpv : (welchT (sample gc tc la) (sample gc tc lb)).map
      (fun t => pTwoTailed (welchDF (sample gc tc la) (sample gc tc lb)) t) =
      some p := hp
  by_cases hvar : varQ (sample gc tc la) = 0 ∧ varQ (sample gc tc lb) = 0
  · rw [show welchT (sample gc tc la) (sample gc tc lb) = none from by
      unfold welchT; rw [if_pos hvar]] at hpv
    exact absurd hpv (by simp)
  · have ht : welchT (sample gc tc la) (sample gc tc lb) = some 0 := by
      unfold welchT
      rw [if_neg hvar, hm]
      norm_num
    rw [ht] at hpv
    have hdf : 1 ≤ welchDF (sample gc tc la) (sample gc tc lb) :=
      welchDF_ge_one _ _ (by omega) (by omega) hvar
    have hp1 : pTwoTailed (welchDF (sample gc tc la) (sample gc tc lb)) 0 = p := by
      simpa using hpv
    rw [pTwoTailed_zero _ hdf] at hp1
    rw [← hp1] at hplt
    norm_num at hplt

/-- C5 witness: two group samples both equal to `[1, 3]` — identical means
and identical unbiased variances — yield a non-significant outcome. -/
theorem c5_witness :
    ∃ res, compareCols exEqGroup exEqTarget "x" "y" = .ok res
      ∧ (significant res ↔ ∃ p, res.pValue = some p ∧ p < 0.05)
      ∧ ¬ significant res :=
  c5_significance exEqGroup exEqTarget "x" "y" (by decide) (by decide)
    (by decide)
    (by rw [show sample exEqGroup exEqTarget "x" = [1, 3] from by decide,
      show sample exEqGroup exEqTarget "y" = [1, 3] from by decide])

theorem filterMap_colMissingRatio (cs : List Col) (n : ℕ) (hn : 0 < n)
    (hlen : ∀ c ∈ cs, c.cells.length = n) :
    cs.filterMap colMissingRatio =
      cs.map (fun c => (c.cells.countP cellIsMissing : ℚ) / (n : ℚ)) := by
  induction cs with
  | nil => rfl
  | cons c t ih =>
      have hc : c.cells.length = n := hlen c (List.mem_cons_self c t)
      have hcr : colMissingRatio c =
          some ((c.cells.countP cellIsMissing : ℚ) / (n : ℚ)) := by
        unfold colMissingRatio
        rw [if_neg (by omega), hc]
      rw [List.filterMap_cons, hcr, List.map_cons,
        ih (fun x hx => hlen x (List.mem_cons_of_mem c hx))]

/-- C6 (amended): for every dataset with at least one column and a positive
shared row count `n`, `missing_ratio` is the arithmetic mean over all columns
of that column's missing-cell count divided by `n` (the 4 × 5 example with
per-column missing fractions 2/5, 1/5, 2/5, 0/5 indeed yields 1/4); when the
row count is 0 the value is undefined (`NaN`, the mean of an empty
selection), not 0. -/
theorem c6_missing_ratio (d : Dataset) (n : ℕ) (hn : 0 < n)
    (hlen : ∀ c ∈ d.cols, c.cells.length = n) (hne : d.cols ≠ []) :
    missingRatio d = some
      ((d.cols.map (fun c => (c.cells.countP cellIsMissing : ℚ) / (n : ℚ))).sum /
        (d.cols.length : ℚ)) := by
  unfold missingRatio
  rw [filterMap_colMissingRatio d.cols n hn hlen]
  have hne2 : ¬ ((d.cols.map
      (fun c => (c.cells.countP cellIsMissing : ℚ) / (n : ℚ))).length = 0) := by
    rw [List.length_map, List.length_eq_zero]
    exact hne
  rw [if_neg hne2, List.length_map]

/-- C6 counterexample: a dataset with one column and zero rows has
`missing_ratio = NaN` (mean of an empty selection), not the 0 the claim
specifies. -/
theorem c6_counterexample :
    rowCount exEmptyRows = 0 ∧ missingRatio exEmptyRows = none
    ∧ (none : Option ℚ) ≠ some 0 :=
  ⟨rfl, rfl, by decide⟩

/-- C6 witness: the amended statement evaluated on the 4 × 5 fixture with
missing fractions 2/5, 1/5, 2/5, 0/5 gives exactly 1/4. -/
theorem c6_witness :
    missingRatio exMissingD = some (1 / 4) ∧ rowCount exMissingD = 5 := by
  have h := c6_missing_ratio exMissingD 5 (by decide) (by decide) (by decide)
  refine ⟨h.trans ?_, rfl⟩
  norm_num [exMissingD, cellIsMissing]

/-- C7: the KPI aggregates cover exactly the first `top` numeric columns in
original column order; when fewer than `top` numeric columns exist all of
them are used (no error); and each column's sum and mean depend only on its
non-missing values. -/
theorem c7_top_aggregates (d : Dataset) (top : ℕ) :
    (topAggregates d top).map Prod.fst = (numeric_cols d).take top
    ∧ (topAggregates d top).length = min top (numericColsL d).length
    ∧ ((numericColsL d).length ≤ top →
        (topAggregates d top).map Prod.fst = numeric_cols d)
    ∧ (∀ c₁ c₂ : Col, colVals c₁ = colVals c₂ →
        colSum c₁ = colSum c₂ ∧ colMean c₁ = colMean c₂) := by
  have h1 : (topAggregates d top).map Prod.fst = (numeric_cols d).take top := by
    unfold topAggregates numeric_cols
    rw [List.map_map, ← List.map_take]
    rfl
  refine ⟨h1, ?_, ?_, ?_⟩
  · unfold topAggregates
    rw [List.length_map, List.length_take]
  · intro h
    rw [h1]
    unfold numeric_cols
    refine List.take_of_length_le ?_
    rw [List.length_map]
    exact h
  · intro c₁ c₂ hv
    constructor
    · unfold colSum
      rw [hv]
    · unfold colMean
      rw [hv]

/-- C7 witness: the aggregate contract evaluated at the 4-column fixture
(3 numeric columns) with the source's `top = 3`. -/
theorem c7_witness :
    (topAggregates exMissingD 3).map Prod.fst = (numeric_cols exMissingD).take 3
    ∧ (topAggregates exMissingD 3).length = min 3 (numericColsL exMissingD).length
    ∧ ((numericColsL exMissingD).length ≤ 3 →
        (topAggregates exMissingD 3).map Prod.fst = numeric_cols exMissingD)
    ∧ (∀ c₁ c₂ : Col, colVals c₁ = colVals c₂ →
        colSum c₁ = colSum c₂ ∧ colMean c₁ = colMean c₂) :=
  c7_top_aggregates exMissingD 3

/-- C8 (amended): for every dataset with distinct column names, the
categorical and numeric name sets are disjoint with no duplicates and each
preserves the original column order; classification is by the column's
declared dtype, so a numeric-dtype column with no valid non-missing values
is classified numeric (not categorical as the claim states). -/
theorem c8_classification (d : Dataset) (h : (d.cols.map Col.name).Nodup) :
    (categorical_cols d ++ numeric_cols d).Nodup
    ∧ (categorical_cols d).Sublist (d.cols.map Col.name)
    ∧ (numeric_cols d).Sublist (d.cols.map Col.name) := by
  have hcat : (categorical_cols d).Sublist (d.cols.map Col.name) :=
    List.Sublist.map Col.name (List.filter_sublist d.cols)
  have hnum : (numeric_cols d).Sublist (d.cols.map Col.name) :=
    List.Sublist.map Col.name (List.filter_sublist d.cols)
  refine ⟨List.Nodup.append (h.sublist hcat) (h.sublist hnum) ?_, hcat, hnum⟩
  intro nm hmc hmn
  obtain ⟨c1, hc1, rfl⟩ := List.mem_map.mp hmc
  obtain ⟨c2, hc2, hname⟩ := List.mem_map.mp hmn
  have hc1m : c1 ∈ d.cols := List.mem_of_mem_filter hc1
  have hc2m : c2 ∈ d.cols := List.mem_of_mem_filter hc2
  have heqc : c2 = c1 := List.inj_on_of_nodup_map h hc2m hc1m hname
  have hk1 : c1.kind = ColKind.text := by
    simpa using (List.mem_filter.mp hc1).2
  have hk2 : c2.kind = ColKind.numeric := by
    simpa using (List.mem_filter.mp hc2).2
  rw [heqc, hk1] at hk2
  exact absurd hk2 (by decide)

/-- C8 counterexample: a numeric-dtype column whose every value is missing is
classified numeric by `select_dtypes`, not categorical as the claim's
default rule requires. -/
theorem c8_counterexample :
    colVals exAllMissingCol = [] ∧ exAllMissingCol ∈ exMissingNumD.cols
    ∧ numeric_cols exMissingNumD = ["m"]
    ∧ categorical_cols exMissingNumD = [] :=
  ⟨rfl, by decide, rfl, rfl⟩

/-- C8 witness: the classification contract on the 4-column fixture. -/
theorem c8_witness :
    (categorical_cols exMissingD ++ numeric_cols exMissingD).Nodup
    ∧ (categorical_cols exMissingD).Sublist (exMissingD.cols.map Col.name)
    ∧ (numeric_cols exMissingD).Sublist (exMissingD.cols.map Col.name) :=
  c8_classification exMissingD (by decide)

/-- C4 (amended): for every dataset with at least 2 numeric columns and
every method among pearson, spearman and kendall, the matrix is computed,
each entry is symmetric in its column pair, every defined entry lies in
`[-1, 1]`, and a diagonal entry equals 1 whenever its column's non-missing
values are nonconstant; an entry one of whose coordinates is constant on the
pairwise-complete cases is undefined (`NaN`) — a defined edge case, not a
crash — rather than a number in `[-1, 1]`. -/
theorem c4_matrix_properties (d : Dataset) (m : Method) (a b : Col)
    (h2 : 2 ≤ (numericColsL d).length) (_ha : a ∈ numericColsL d)
    (_hb : b ∈ numericColsL d) :
    corrEntry m a b = corrEntry m b a
    ∧ (∀ r : ℝ, corrEntry m a b = some r → -1 ≤ r ∧ r ≤ 1)
    ∧ (nonconstant (colVals a) → corrEntry m a a = some 1)
    ∧ (correlate d m).isSome := by
  refine ⟨corrEntry_symm m a b, fun r hr => corrEntry_bound m a b r hr,
    fun hnc => corrEntry_diag m a hnc, ?_⟩
  unfold correlate
  rw [if_pos h2]
  rfl

/-- C4 witness: the matrix contract at the two-numeric-column fixture, with
the diagonal entry of the nonconstant column evaluated to 1. -/
theorem c4_witness :
    corrEntry Method.pearson exConstX exConstX = some 1 :=
  (c4_matrix_properties exConstD Method.pearson exConstX exConstX (by decide)
    (by decide) (by decide)).2.2.1 (by decide)

/-- C4 counterexample: with numeric columns `[1, 2, 3]` and `[5, 5, 5]` the
off-diagonal pearson entry is `NaN` (undefined) because the second column has
zero variance, so not every entry of the matrix lies in `[-1, 1]`. -/
theorem c4_counterexample :
    2 ≤ (numericColsL exConstD).length
    ∧ exConstX ∈ numericColsL exConstD
    ∧ exConstY ∈ numericColsL exConstD
    ∧ corrEntry Method.pearson exConstX exConstY = none
    ∧ ¬ ∃ r : ℝ, corrEntry Method.pearson exConstX exConstY = some r
        ∧ -1 ≤ r ∧ r ≤ 1 := by
  have hcp : completePairs exConstX exConstY = [(1, 5), (2, 5), (3, 5)] := by
    decide
  have hnone : corrEntry Method.pearson exConstX exConstY = none := by
    show pearsonOn (completePairs exConstX exConstY) = none
    unfold pearsonOn
    rw [if_pos]
    right
    rw [hcp]
    norm_num [syyOf, meanQ]
  refine ⟨by decide, by decide, by decide, hnone, ?_⟩
  rintro ⟨r, hr, -⟩
  rw [hnone] at hr
  exact absurd hr (by simp)

end SalesBoard
